import Mathlib

/-!
Formal model of the bit-utility and debug-print primitives of PAL
(`inc/util/palInlineFuncs.h`, `inc/util/palDbgPrint.h`), as a shallow
embedding on `Nat`, together with proofs and refutations of the
specification's claims about them.

Machine integers are modelled as `Nat` with explicit `% 2^w` reductions at
every operation where the corresponding C++ unsigned arithmetic can wrap.
C++ subtraction `a - b` is modelled by Lean's truncated `Nat` subtraction
only at places where `b ≤ a` is proved, so the two agree.
-/

namespace Util

/-! ## palInlineFuncs.h : numeric helpers -/

/-- IsPowerOfTwo from palInlineFuncs.h lines 196-200:
`return (value == 0) ? false : ((value & (value - 1)) == 0);`. -/
def IsPowerOfTwo (value : Nat) : Bool :=
  if value = 0 then false else (value &&& (value - 1)) == 0

/-- Pow2Align from palInlineFuncs.h lines 217-224:
`return ((value + static_cast<T>(alignment) - 1) & ~(static_cast<T>(alignment) - 1));`.
Here `w` is the bit width of the instantiating unsigned type `T`.
The cast of the `uint64` alignment to `T` truncates mod `2^w`; the additions
and the subtraction of 1 are `T`-arithmetic mod `2^w` (subtracting 1 is
modelled as adding `2^w - 1` and reducing, which is the wrap-around
semantics of unsigned C++); bitwise NOT on a `w`-bit word is
`fun x => 2^w - 1 - x`. -/
def Pow2Align (w value alignment : Nat) : Nat :=
  let a := alignment % 2^w
  ((value + a + (2^w - 1)) % 2^w) &&& ((2^w - 1) - ((a + (2^w - 1)) % 2^w))

/-- RoundUpQuotient from palInlineFuncs.h lines 229-235:
`return ((dividend + (divisor - 1)) / divisor);` in `w`-bit unsigned
arithmetic (the addition can wrap). -/
def RoundUpQuotient (w dividend divisor : Nat) : Nat :=
  ((dividend + (divisor - 1)) % 2^w) / divisor

/-- Pow2Pad loop body from palInlineFuncs.h lines 286-289:
`while (ret < value) { ret <<= 1; }` on a `w`-bit unsigned `T`, so the
shift wraps mod `2^w`.  The C++ loop has no built-in bound, so the model
takes explicit fuel; `none` means the fuel ran out with the loop still
running. -/
def pow2PadGo (w : Nat) : Nat → Nat → Nat → Option Nat
  | 0, ret, value => if ret < value then none else some ret
  | fuel + 1, ret, value =>
    if ret < value then pow2PadGo w fuel ((ret <<< 1) % 2^w) value else some ret

/-- Pow2Pad from palInlineFuncs.h lines 275-293: `ret = 1`; if
`IsPowerOfTwo(value)` then `ret = value` else double `ret` until
`ret >= value`. -/
def Pow2Pad (w fuel value : Nat) : Option Nat :=
  if IsPowerOfTwo value then some value else pow2PadGo w fuel 1 value

/-- Log2 from palInlineFuncs.h lines 353-366:
`logValue = 0; while (u > 1) { ++logValue; u >>= 1; }`. -/
def Log2 (u : Nat) : Nat :=
  if 1 < u then Log2 (u / 2) + 1 else 0
termination_by u
decreasing_by exact Nat.div_lt_self (by omega) (by omega)

/-- NumBytesToNumDwords from palInlineFuncs.h lines 479-483:
`return Pow2Align(numBytes, sizeof(uint32)) / sizeof(uint32);` on `uint32`. -/
def NumBytesToNumDwords (numBytes : Nat) : Nat :=
  Pow2Align 32 numBytes 4 / 4

/-- CountSetBits from palInlineFuncs.h lines 584-594, on `uint32`:
`x = x - ((x >> 1) & 0x55555555);`
`x = (x & 0x33333333) + ((x >> 2) & 0x33333333);`
`x = (((x + (x >> 4)) & 0x0F0F0F0F) * 0x01010101) >> 24;`.
The first subtraction cannot underflow because `(x >> 1) & 0x55555555 ≤ x`;
the step-2 addition is at most `0x66666666` and the step-3 addition at most
`0x6CCCCCCC`, so neither wraps; the multiplication does wrap and is reduced
mod `2^32`. -/
def CountSetBits (value : Nat) : Nat :=
  let x1 := value - ((value >>> 1) &&& 0x55555555)
  let x2 := (x1 &&& 0x33333333) + ((x1 >>> 2) &&& 0x33333333)
  ((((x2 + (x2 >>> 4)) &&& 0x0F0F0F0F) * 0x01010101) % 2^32) >>> 24

/-- Naive 32-bit population count, as the claim states it: the number of
bit positions `i` in `[0, 32)` at which bit `i` of `x` is set. -/
def popcount32 (x : Nat) : Nat :=
  (List.range 32).countP (fun i => x.testBit i)

/-- Conversion performed by `static_cast<uint32>(pStr[i])` in HashString
(palInlineFuncs.h line 573): `pStr` is a `const char*` and `char` is signed
on PAL's target platforms, so a byte value `b ≥ 128` is read as the
negative `char` `b - 256` and sign-extends to the `uint32` value
`2^32 - 256 + b`. -/
def charToUint32 (b : Nat) : Nat :=
  if b < 128 then b else 2^32 - 256 + b

/-- HashString from palInlineFuncs.h lines 560-578: FNV-1a over the bytes
of the string, with `hash ^= static_cast<uint32>(pStr[i]); hash *= 16777619;`
in `uint32` arithmetic, starting from the offset basis 2166136261.
The string is modelled as the list of its byte values (each `< 256`). -/
def HashString (bytes : List Nat) : Nat :=
  bytes.foldl (fun hash c => ((hash ^^^ charToUint32 c) * 16777619) % 2^32) 2166136261

/-- Modelled from the spec (claim C5's reference description): the 32-bit
FNV-1a reference hash. Start with `hash = 2166136261`; for each byte in
order, `hash = (hash XOR byte) * 16777619` modulo `2^32`. Unlike the code,
the byte value itself (never sign-extended) is XORed in. -/
def fnv1aReference (bytes : List Nat) : Nat :=
  bytes.foldl (fun hash b => ((hash ^^^ b) * 16777619) % 2^32) 2166136261

/-! ## palInlineFuncs.h : wide bitfields

A wide bitfield `T bitfield[N]` is modelled as a `List Nat` of length `N`
whose entries are the words, each `< 2^w`, where `w = sizeof(T) * 8`. -/

/-- Word index and intra-word mask computed by WideBitfieldIsSet/SetBit/
ClearBit (palInlineFuncs.h lines 119-120, 135-136, 151-152):
`index = bit / (sizeof(T) << 3);`
`mask  = (1 << (bit & ((sizeof(T) << 3) - 1)));`
The mask is built from the `int` literal `1` and stored in a `uint32`, so
its value is `2^(bit & (w-1))` truncated to 32 bits.  (For `w = 64` and
`bit % 64 ≥ 32` the C++ shift overflows the 32-bit `int` — undefined
behavior; the model keeps the modular value, and in any case no `uint32`
can hold the intended `2^(bit % 64) ≥ 2^32`.) -/
def wideBitfieldMask (w bit : Nat) : Nat :=
  (2 ^ (bit &&& (w - 1))) % 2^32

/-- WideBitfieldIsSet from palInlineFuncs.h lines 114-123:
`return (0 != (bitfield[index] & mask));`. -/
def WideBitfieldIsSet (w : Nat) (bitfield : List Nat) (bit : Nat) : Bool :=
  (bitfield.getD (bit / w) 0 &&& wideBitfieldMask w bit) != 0

/-- WideBitfieldSetBit from palInlineFuncs.h lines 130-139:
`bitfield[index] |= mask;` (the result is truncated back to the word
width on assignment). -/
def WideBitfieldSetBit (w : Nat) (bitfield : List Nat) (bit : Nat) : List Nat :=
  bitfield.set (bit / w) ((bitfield.getD (bit / w) 0 ||| wideBitfieldMask w bit) % 2^w)

/-- WideBitfieldClearBit from palInlineFuncs.h lines 146-155:
`bitfield[index] &= ~mask;`. `~mask` is the complement of the `uint32`
mask, `2^32 - 1 - mask`; assignment truncates to the word width. -/
def WideBitfieldClearBit (w : Nat) (bitfield : List Nat) (bit : Nat) : List Nat :=
  bitfield.set (bit / w)
    ((bitfield.getD (bit / w) 0 &&& ((2^32 - 1) - wideBitfieldMask w bit)) % 2^w)

/-- Model of `__builtin_ffs` on a `w`-bit word (used by
WideBitMaskScanForward, palInlineFuncs.h line 432): one plus the index of
the least-significant set bit, or 0 if the word is zero. -/
def ffsW (w x : Nat) : Nat :=
  match (List.range w).findIdx? (fun i => x.testBit i) with
  | some i => i + 1
  | none => 0

/-- Inner loop of WideBitMaskScanForward (palInlineFuncs.h lines 430-453):
starting at word `maskIndex`, take `__builtin_ffs` of the current word; if
zero, set `*pIndex = 0`, advance to the next word and stop with `false`
once `maskIndex` reaches `N`; otherwise `*pIndex = (ffs - 1) + maskIndex *
w` and stop with `true`.  The result pair is `(returned bool, final
*pIndex)`.  Fuel is `N - maskIndex`, the maximal number of remaining
iterations. -/
def wbmsfGo (w : Nat) (mask : List Nat) : Nat → Nat → Bool × Nat
  | 0, _ => (false, 0)
  | fuel + 1, maskIndex =>
    let f := ffsW w (mask.getD maskIndex 0)
    if f = 0 then
      if maskIndex + 1 < mask.length then wbmsfGo w mask fuel (maskIndex + 1)
      else (false, 0)
    else (true, (f - 1) + maskIndex * w)

/-- WideBitMaskScanForward from palInlineFuncs.h lines 414-456. The first
loop (lines 423-425) only checks whether any word of the whole array is
nonzero; if none is, the second loop is skipped and the function returns
`false` with `*pIndex` unchanged.  Otherwise the second loop scans from
word `*pIndex / w` as modelled by `wbmsfGo`. -/
def WideBitMaskScanForward (w : Nat) (mask : List Nat) (pIndex : Nat) : Bool × Nat :=
  let maskIndex := pIndex / w
  if mask.any (fun x => x != 0) then wbmsfGo w mask (mask.length - maskIndex) maskIndex
  else (false, pIndex)

/-! ## palDbgPrint.h : debug print routing -/

/-- DbgPrintCategory from palDbgPrint.h lines 48-55. -/
inductive DbgPrintCategory where
  | InfoMsg
  | WarnMsg
  | ErrorMsg
  | ScMsg
deriving DecidableEq

/-- DbgPrintMode from palDbgPrint.h lines 58-63. -/
inductive DbgPrintMode where
  | Disable
  | Print
  | File
deriving DecidableEq

/-- Observable destination of one debug-print call: nothing, the installed
callback (with the message's category and finished text), the debugger /
stdout sink, or the per-category log file. -/
inductive DbgOutput where
  | nothing
  | callback (category : DbgPrintCategory) (text : String)
  | debugger (text : String)
  | file (category : DbgPrintCategory) (text : String)
deriving DecidableEq

/-- True exactly when the output went to the file sink. -/
def DbgOutput.isFile : DbgOutput → Bool
  | .file _ _ => true
  | _ => false

/-- Modelled from the spec: the implementation of `DbgPrintf`/`DbgVPrintf`
is not under src (palDbgPrint.h lines 107-124 only declare them `extern`).
Spec §4.2: format the message, apply style flags, "then: if a callback is
installed, invoke it with (category, finished text) and return — the
callback fully owns further routing; otherwise dispatch per the category's
configured Mode" (Disable: discard; Print: debugger/stdout; File: log
file).  `callbackInstalled` abstracts the global callback registration,
`modes` the process-wide category → mode table, and `text` the already
formatted message. -/
def dbgPrintfRoute (callbackInstalled : Bool) (modes : DbgPrintCategory → DbgPrintMode)
    (category : DbgPrintCategory) (text : String) : DbgOutput :=
  if callbackInstalled then .callback category text
  else
    match modes category with
    | .Disable => .nothing
    | .Print => .debugger text
    | .File => .file category text

/-- DbgPrintf routes through the shared formatting-and-routing path. -/
def DbgPrintf (callbackInstalled : Bool) (modes : DbgPrintCategory → DbgPrintMode)
    (category : DbgPrintCategory) (text : String) : DbgOutput :=
  dbgPrintfRoute callbackInstalled modes category text

/-- DbgVPrintf differs from DbgPrintf only in how the variable-argument
list is obtained; the routing is the same shared path. -/
def DbgVPrintf (callbackInstalled : Bool) (modes : DbgPrintCategory → DbgPrintMode)
    (category : DbgPrintCategory) (text : String) : DbgOutput :=
  dbgPrintfRoute callbackInstalled modes category text

/-! ## Bit-level helper lemmas -/

/-- A `testBit` of an aligned sum `2^k * a + b` (with `b < 2^k`) reads `b`
below bit `k` and `a` at and above it. -/
theorem testBit_split {k b : Nat} (a : Nat) (hb : b < 2^k) (j : Nat) :
    (2^k * a + b).testBit j = if j < k then b.testBit j else a.testBit (j - k) := by
  rcases Nat.lt_or_ge j k with h | h
  · rw [if_pos h, Nat.testBit_to_div_mod, Nat.testBit_to_div_mod]
    have hkj : 2^k = 2^j * 2^(k-j) := by rw [← pow_add]; congr 1; omega
    have h1 : (2^k * a + b) / 2^j = 2^(k-j) * a + b / 2^j := by
      rw [hkj, Nat.mul_assoc, Nat.mul_add_div (Nat.two_pow_pos j)]
    obtain ⟨d, hd⟩ : ∃ d, k - j = d + 1 := ⟨k - j - 1, by omega⟩
    have h2 : 2^(k-j) * a = 2 * (2^d * a) := by rw [hd, pow_succ]; ring
    rw [h1, h2, Nat.add_comm, Nat.add_mul_mod_self_left]
  · rw [if_neg (Nat.not_lt.mpr h), Nat.testBit_to_div_mod, Nat.testBit_to_div_mod]
    have hkj : 2^j = 2^k * 2^(j-k) := by rw [← pow_add]; congr 1; omega
    have h1 : (2^k * a + b) / 2^j = a / 2^(j-k) := by
      rw [hkj, ← Nat.div_div_eq_div_mul, Nat.mul_add_div (Nat.two_pow_pos k),
        Nat.div_eq_of_lt hb, Nat.add_zero]
    rw [h1]

/-- Bitwise AND distributes over byte-aligned splits. -/
theorem and_split {k b d : Nat} (a c : Nat) (hb : b < 2^k) (hd : d < 2^k) :
    (2^k * a + b) &&& (2^k * c + d) = 2^k * (a &&& c) + (b &&& d) := by
  have hbd : b &&& d < 2^k := lt_of_le_of_lt Nat.and_le_left hb
  apply Nat.eq_of_testBit_eq
  intro j
  rw [Nat.testBit_and, testBit_split a hb j, testBit_split c hd j, testBit_split (a &&& c) hbd j]
  rcases Nat.lt_or_ge j k with h | h
  · simp [h, Nat.testBit_and]
  · simp [Nat.not_lt.mpr h, Nat.testBit_and]

/-- Masking with an all-ones low mask is reduction mod a power of two. -/
theorem and_two_pow_sub_one (x n : Nat) : x &&& (2^n - 1) = x % 2^n := by
  apply Nat.eq_of_testBit_eq
  intro i
  rw [Nat.testBit_and, Nat.testBit_mod_two_pow, Nat.testBit_two_pow_sub_one]
  rcases Nat.lt_or_ge i n with h | h
  · simp [h]
  · simp [Nat.not_lt.mpr h]

/-- ANDing with a mask shifted up by `k` bits reads the operand shifted
down by `k` bits. -/
theorem and_mul_two_pow (x k m : Nat) : x &&& (2^k * m) = 2^k * ((x >>> k) &&& m) := by
  apply Nat.eq_of_testBit_eq
  intro i
  have h1 : (2^k * m).testBit i = (decide (k ≤ i) && m.testBit (i - k)) := by
    rw [Nat.mul_comm, ← Nat.shiftLeft_eq]
    exact Nat.testBit_shiftLeft m
  have h2 : (2^k * ((x >>> k) &&& m)).testBit i =
      (decide (k ≤ i) && ((x >>> k) &&& m).testBit (i - k)) := by
    rw [Nat.mul_comm, ← Nat.shiftLeft_eq]
    exact Nat.testBit_shiftLeft _
  rw [Nat.testBit_and, h1, h2, Nat.testBit_and, Nat.testBit_shiftRight]
  rcases Nat.lt_or_ge i k with h | h
  · simp [show ¬ k ≤ i by omega]
  · have hik : k + (i - k) = i := by omega
    simp [h, hik, Bool.and_left_comm, Bool.and_comm]

/-- ANDing a `w`-bit value with the high mask `2^w - 2^k` (the `w`-bit
complement of `2^k - 1`) rounds it down to a multiple of `2^k`. -/
theorem and_high_mask {w k : Nat} (x : Nat) (hk : k ≤ w) (hx : x < 2^w) :
    x &&& (2^w - 2^k) = 2^k * (x / 2^k) := by
  have hw : 2^k * 2^(w-k) = 2^w := by rw [← pow_add]; congr 1; omega
  have hsplit : 2^w - 2^k = 2^k * (2^(w-k) - 1) := by
    rw [Nat.mul_sub, Nat.mul_one, hw]
  rw [hsplit, and_mul_two_pow]
  congr 1
  rw [and_two_pow_sub_one, Nat.shiftRight_eq_div_pow]
  apply Nat.mod_eq_of_lt
  rw [Nat.div_lt_iff_lt_mul (Nat.two_pow_pos k)]
  calc x < 2^w := hx
    _ = 2^(w-k) * 2^k := by rw [← pow_add]; congr 1; omega

/-- Evaluation of Pow2Align when the alignment is a genuine power of two
below the word size and the sum `value + alignment - 1` does not wrap:
the result is `value + alignment - 1` rounded down to a multiple of the
alignment. -/
theorem pow2Align_eval (w k v : Nat) (hk : k < w) (hno : v + 2^k ≤ 2^w) :
    Pow2Align w v (2^k) = 2^k * ((v + 2^k - 1) / 2^k) := by
  have hk1 : 1 ≤ 2^k := Nat.two_pow_pos k
  have hw1 : 1 ≤ 2^w := Nat.two_pow_pos w
  have haw : 2^k < 2^w := Nat.pow_lt_pow_right (by omega) hk
  simp only [Pow2Align]
  have hmod_a : 2^k % 2^w = 2^k := Nat.mod_eq_of_lt haw
  rw [hmod_a]
  have h1 : (v + 2^k + (2^w - 1)) % 2^w = v + 2^k - 1 := by
    have he : v + 2^k + (2^w - 1) = (v + 2^k - 1) + 2^w := by omega
    rw [he, Nat.add_mod_right]
    exact Nat.mod_eq_of_lt (by omega)
  have h2 : (2^k + (2^w - 1)) % 2^w = 2^k - 1 := by
    have he : 2^k + (2^w - 1) = (2^k - 1) + 2^w := by omega
    rw [he, Nat.add_mod_right]
    exact Nat.mod_eq_of_lt (by omega)
  rw [h1, h2]
  have h3 : (2^w - 1) - (2^k - 1) = 2^w - 2^k := by omega
  rw [h3]
  exact and_high_mask _ (by omega) (by omega)

/-! ## Claim C7 : Pow2Align -/

/-- Claim C7 (corrected): for every `w`-bit value `v` and power-of-two
alignment `a = 2^k < 2^w` such that the sum `v + a - 1` does not wrap
(`v + a ≤ 2^w`), Pow2Align satisfies `v ≤ Pow2Align v a`,
`Pow2Align v a % a = 0`, and idempotence
`Pow2Align (Pow2Align v a) a = Pow2Align v a`.  (As originally stated —
for every `v` — the claim fails when `v + a - 1` wraps; see the
counterexample.) -/
theorem pow2Align_props (w k v : Nat) (hk : k < w) (hno : v + 2^k ≤ 2^w) :
    v ≤ Pow2Align w v (2^k) ∧ Pow2Align w v (2^k) % 2^k = 0 ∧
    Pow2Align w (Pow2Align w v (2^k)) (2^k) = Pow2Align w v (2^k) := by
  have hk1 : 1 ≤ 2^k := Nat.two_pow_pos k
  have hw1 : 1 ≤ 2^w := Nat.two_pow_pos w
  have hw2 : 2^k * 2^(w-k) = 2^w := by rw [← pow_add]; congr 1; omega
  have heval := pow2Align_eval w k v hk hno
  have hdm := Nat.div_add_mod (v + 2^k - 1) (2^k)
  have hmlt : (v + 2^k - 1) % 2^k < 2^k := Nat.mod_lt _ (by omega)
  have hle : v ≤ Pow2Align w v (2^k) := by rw [heval]; omega
  refine ⟨hle, ?_, ?_⟩
  · rw [heval]
    exact Nat.mul_mod_right _ _
  · set q := (v + 2^k - 1) / 2^k with hq
    have hqlt : q < 2^(w-k) := by
      rw [hq, Nat.div_lt_iff_lt_mul (by omega)]
      calc v + 2^k - 1 < 2^w := by omega
        _ = 2^(w-k) * 2^k := by rw [← pow_add]; congr 1; omega
    have hrno : 2^k * q + 2^k ≤ 2^w := by
      have : 2^k * q + 2^k = 2^k * (q + 1) := by ring
      rw [this, ← hw2]
      exact Nat.mul_le_mul_left _ (by omega)
    rw [heval]
    rw [pow2Align_eval w k _ hk hrno]
    have he : 2^k * q + 2^k - 1 = 2^k * q + (2^k - 1) := by omega
    rw [he, Nat.mul_add_div (by omega), Nat.div_eq_of_lt (by omega), Nat.add_zero]

/-- Counterexample to claim C7 as stated: on a 32-bit word, aligning
`v = 0xFFFFFFFF` to `a = 2` wraps to 0, which is strictly below `v`, so
the claimed `Pow2Align v a ≥ v` fails. -/
theorem pow2Align_cex :
    Pow2Align 32 4294967295 2 = 0 ∧ Pow2Align 32 4294967295 2 < 4294967295 := by
  constructor
  · decide
  · decide

/-- Witness for C7's theorem at `w = 32`, `v = 5`, `a = 2^2`. -/
theorem pow2Align_props_witness :
    (2 < 32) ∧ (5 + 2^2 ≤ 2^32) ∧
    (5 ≤ Pow2Align 32 5 (2^2) ∧ Pow2Align 32 5 (2^2) % 2^2 = 0 ∧
     Pow2Align 32 (Pow2Align 32 5 (2^2)) (2^2) = Pow2Align 32 5 (2^2)) :=
  ⟨by decide, by norm_num, pow2Align_props 32 2 5 (by decide) (by norm_num)⟩

/-! ## Claim C9 : NumBytesToNumDwords vs RoundUpQuotient -/

/-- Claim C9 (confirmed): for every `uint32` byte count, the dword count
computed via `Pow2Align(numBytes, 4) / 4` equals the generic ceiling
division `RoundUpQuotient(numBytes, 4)`, including inputs for which the
intermediate addition wraps mod `2^32`. -/
theorem numBytesToNumDwords_eq_roundUpQuotient (n : Nat) (_hn : n < 2^32) :
    NumBytesToNumDwords n = RoundUpQuotient 32 n 4 := by
  unfold NumBytesToNumDwords RoundUpQuotient
  simp only [Pow2Align]
  have e0 : (4 : Nat) % 2^32 = 4 := by norm_num
  rw [e0]
  have e1 : ((4 : Nat) + (2^32 - 1)) % 2^32 = 3 := by norm_num
  rw [e1]
  have e2 : (n + 4 + (2^32 - 1)) % 2^32 = (n + 3) % 2^32 := by
    have he : n + 4 + (2^32 - 1) = (n + 3) + 2^32 := by omega
    rw [he, Nat.add_mod_right]
  rw [e2]
  have e3 : (2^32 - 1) - 3 = 2^32 - 2^2 := by norm_num
  rw [e3]
  rw [and_high_mask ((n + 3) % 2^32) (by norm_num) (Nat.mod_lt _ (by norm_num))]
  have e4 : (4 : Nat) - 1 = 3 := by norm_num
  rw [e4]
  rw [show (2:Nat)^2 = 4 from rfl, Nat.mul_div_cancel_left _ (by norm_num)]

/-- Witness for C9's theorem at the wrap-around input `n = 0xFFFFFFFF`. -/
theorem numBytesToNumDwords_eq_roundUpQuotient_witness :
    (4294967295 < 2^32) ∧
    NumBytesToNumDwords 4294967295 = RoundUpQuotient 32 4294967295 4 :=
  ⟨by norm_num, numBytesToNumDwords_eq_roundUpQuotient 4294967295 (by norm_num)⟩

/-! ## Claim C8 : Log2 -/

/-- Claim C8 (confirmed): for every `u ≥ 1`, `Log2 u` is the floor base-2
logarithm (`2 ^ Log2 u ≤ u < 2 ^ (Log2 u + 1)`); moreover `Log2 1 = 0`
and the out-of-domain input 0 yields `Log2 0 = 0`. -/
theorem log2_floor (u : Nat) (hu : 1 ≤ u) :
    (2 ^ Log2 u ≤ u ∧ u < 2 ^ (Log2 u + 1)) ∧ Log2 0 = 0 ∧ Log2 1 = 0 := by
  refine ⟨?_, by simp [Log2], by simp [Log2]⟩
  induction u using Nat.strong_induction_on with
  | _ u ih =>
    rcases Nat.lt_or_ge u 2 with h | h
    · have hu1 : u = 1 := by omega
      subst hu1
      simp [Log2]
    · rw [Log2, if_pos (by omega)]
      obtain ⟨h1, h2⟩ := ih (u / 2) (by omega) (by omega)
      constructor
      · rw [pow_succ]
        omega
      · rw [pow_succ, pow_succ]
        rw [pow_succ] at h2
        omega

/-- Witness for C8's theorem at `u = 8`. -/
theorem log2_floor_witness :
    (1 ≤ 8) ∧ ((2 ^ Log2 8 ≤ 8 ∧ 8 < 2 ^ (Log2 8 + 1)) ∧ Log2 0 = 0 ∧ Log2 1 = 0) :=
  ⟨by omega, log2_floor 8 (by omega)⟩

/-! ## Claim C3 : DbgPrintf callback routing -/

/-- Claim C3 (confirmed, modelled from the spec): whenever a debug-print
callback is installed, DbgPrintf and DbgVPrintf deliver the formatted text
and its category to the callback, and no Mode-based output occurs — in
particular the file sink is never written, whatever the category's
configured mode is. -/
theorem dbgPrintf_callback_owns_routing (modes : DbgPrintCategory → DbgPrintMode)
    (category : DbgPrintCategory) (text : String) :
    DbgPrintf true modes category text = DbgOutput.callback category text ∧
    DbgVPrintf true modes category text = DbgOutput.callback category text ∧
    (DbgPrintf true modes category text).isFile = false ∧
    (DbgVPrintf true modes category text).isFile = false := by
  simp [DbgPrintf, DbgVPrintf, dbgPrintfRoute, DbgOutput.isFile]

/-! ## Claim C10 : wide-bitfield frame property -/

/-- Claim C10 (confirmed): WideBitfieldSetBit and WideBitfieldClearBit at
an in-range bit index `b` only write the word at index `b / w`; every word
at any other index keeps exactly its previous value. -/
theorem wideBitfield_frame (w : Nat) (bf : List Nat) (b j : Nat) (_hw : 0 < w)
    (_hb : b < bf.length * w) (hj : j ≠ b / w) :
    (WideBitfieldSetBit w bf b).getD j 0 = bf.getD j 0 ∧
    (WideBitfieldClearBit w bf b).getD j 0 = bf.getD j 0 := by
  unfold WideBitfieldSetBit WideBitfieldClearBit
  constructor <;>
    · simp only [List.getD_eq_getElem?_getD]
      rw [List.getElem?_set_ne (Ne.symm hj)]

/-- Witness for C10's theorem: a 3-word 32-bit bitfield, bit 70 (word 2),
observed at word 1. -/
theorem wideBitfield_frame_witness :
    (0 < 32) ∧ (70 < ([1, 2, 3] : List Nat).length * 32) ∧ ((1 : Nat) ≠ 70 / 32) ∧
    ((WideBitfieldSetBit 32 [1, 2, 3] 70).getD 1 0 = ([1, 2, 3] : List Nat).getD 1 0 ∧
     (WideBitfieldClearBit 32 [1, 2, 3] 70).getD 1 0 = ([1, 2, 3] : List Nat).getD 1 0) :=
  ⟨by decide, by decide, by decide,
    wideBitfield_frame 32 [1, 2, 3] 70 1 (by decide) (by decide) (by decide)⟩

/-! ## Claim C2 : wide-bitfield set/test round trip -/

/-- Claim C2 (code bug): the set-then-test round trip fails for 64-bit
words.  The per-word mask is computed from the `int` literal `1` and held
in a `uint32`, so for `bit % 64 = 32` the mask is not `2^32` (it cannot
be — it is a `uint32`; under the modular semantics of the model it is 0):
WideBitfieldSetBit on a zeroed one-word `uint64` bitfield at bit 32
changes nothing, and WideBitfieldIsSet then reports bit 32 as clear,
where the claim requires it to be set. -/
theorem wideBitfield_roundTrip_uint64_bug :
    WideBitfieldSetBit 64 [0] 32 = [0] ∧
    WideBitfieldIsSet 64 (WideBitfieldSetBit 64 [0] 32) 32 = false := by
  constructor
  · decide
  · decide

/-! ## Claim C5 : HashString -/

/-- Counterexample to claim C5 as stated: for the one-byte string
`"\xFF"`, the code sign-extends the byte through `char` before XORing, so
its hash differs from the byte-based FNV-1a reference hash. -/
theorem hashString_cex : (HashString [255] == fnv1aReference [255]) = false := by decide

/-- Claim C5 (corrected): for every nonempty byte string all of whose
bytes are below 128 (so that reading them through signed `char` is
value-preserving), HashString computes exactly the 32-bit FNV-1a
reference hash (offset basis 2166136261, prime 16777619, one byte at a
time); determinism is immediate since the model is a pure function. -/
theorem hashString_fnv1a (bytes : List Nat) (_hne : bytes ≠ [])
    (hascii : ∀ b ∈ bytes, b < 128) :
    HashString bytes = fnv1aReference bytes := by
  unfold HashString fnv1aReference
  have aux : ∀ (l : List Nat) (acc : Nat), (∀ b ∈ l, b < 128) →
      l.foldl (fun hash c => ((hash ^^^ charToUint32 c) * 16777619) % 2^32) acc =
      l.foldl (fun hash b => ((hash ^^^ b) * 16777619) % 2^32) acc := by
    intro l
    induction l with
    | nil => intro acc _; simp only [List.foldl_nil]
    | cons x xs ih =>
      intro acc h
      simp only [List.foldl_cons]
      rw [show charToUint32 x = x from by
        unfold charToUint32; rw [if_pos (h x (by simp))]]
      exact ih _ (fun b hb => h b (by simp [hb]))
  exact aux bytes 2166136261 hascii

/-- Witness for C5's theorem on the one-byte ASCII string `"a"`. -/
theorem hashString_fnv1a_witness :
    (([97] : List Nat) ≠ []) ∧ (∀ b ∈ ([97] : List Nat), b < 128) ∧
    HashString [97] = fnv1aReference [97] :=
  ⟨by decide, by decide, hashString_fnv1a [97] (by decide) (by decide)⟩

/-! ## Claim C4 : CountSetBits

The three steps of CountSetBits act independently on each byte of the
input (the masks have period 8 bits and their top bits cut every carry /
shifted-in bit at byte boundaries), and the final multiplication by
0x01010101 sums the per-byte counts.  We prove this by introducing an
`n`-byte generalisation of the pipeline and inducting on `n`. -/

/-- Mask with byte `c` repeated `n` times (`rep8 0x55 4 = 0x55555555`). -/
def rep8 (c : Nat) : Nat → Nat
  | 0 => 0
  | n + 1 => 2^8 * rep8 c n + c

/-- Step 1 of CountSetBits on an `n`-byte value. -/
def bstep1 (n x : Nat) : Nat := x - ((x >>> 1) &&& rep8 0x55 n)

/-- Step 2 of CountSetBits on an `n`-byte value. -/
def bstep2 (n y : Nat) : Nat := (y &&& rep8 0x33 n) + ((y >>> 2) &&& rep8 0x33 n)

/-- Step 3 (before the multiply) of CountSetBits on an `n`-byte value. -/
def bstep3 (n z : Nat) : Nat := (z + (z >>> 4)) &&& rep8 0x0F n

/-- Population count of one byte. -/
def pc8 (b : Nat) : Nat := (List.range 8).countP (fun i => b.testBit i)

/-- Byte-wise population counts of an `n`-byte value, packed one count
per byte. -/
def byteSums : Nat → Nat → Nat
  | 0, _ => 0
  | n + 1, x => 2^8 * byteSums n (x / 2^8) + pc8 (x % 2^8)

theorem shiftRight_one (y : Nat) : y >>> 1 = y / 2 := by
  rw [Nat.shiftRight_eq_div_pow, pow_one]

theorem shiftRight_two (y : Nat) : y >>> 2 = y / 4 := by
  rw [Nat.shiftRight_eq_div_pow]

theorem shiftRight_four (y : Nat) : y >>> 4 = y / 16 := by
  rw [Nat.shiftRight_eq_div_pow]

theorem and_mod16 (t : Nat) : t &&& 15 = t % 16 := by
  have h := and_two_pow_sub_one t 4
  norm_num at h
  exact h

/-- When the low part of an aligned sum and the mask both fit below the
split point, the high part is invisible to the AND. -/
theorem and_byte_high (p t u e : Nat) (hu : u < 2^p) (he : e < 2^p) :
    (2^p * t + u) &&& e = u &&& e := by
  have h := @and_split p u e t 0 hu he
  simpa using h

/-- Step 1 processes the low byte and the remaining bytes independently:
the bit shifted across the byte boundary is cut by mask bit 7 = 0, and
the subtraction has no borrow between bytes. -/
theorem bstep1_split (n h l : Nat) (hl : l < 2^8) :
    bstep1 (n+1) (2^8*h + l) = 2^8 * bstep1 n h + bstep1 1 l := by
  unfold bstep1
  simp only [shiftRight_one]
  rw [show rep8 0x55 (n+1) = 2^8 * rep8 0x55 n + 0x55 from rfl,
    show rep8 0x55 1 = 0x55 from rfl]
  have hd : (2^8*h + l) / 2 = 2^8*(h/2) + (2^7*(h%2) + l/2) := by omega
  rw [hd]
  rw [@and_split 8 (2^7*(h%2) + l/2) 0x55 (h/2) (rep8 0x55 n) (by omega) (by norm_num)]
  rw [@and_byte_high 7 (h%2) (l/2) 0x55 (by omega) (by norm_num)]
  have hA : h/2 &&& rep8 0x55 n ≤ h := le_trans Nat.and_le_left (by omega)
  have hs : l/2 &&& 0x55 ≤ l := le_trans Nat.and_le_left (by omega)
  omega

/-- Step 2 processes the low byte and the remaining bytes independently:
the two bits shifted across the byte boundary are cut by mask bits 6-7 =
0, and the per-byte sums (each at most 0x33 + 0x33) never carry. -/
theorem bstep2_split (n h l : Nat) (hl : l < 2^8) :
    bstep2 (n+1) (2^8*h + l) = 2^8 * bstep2 n h + bstep2 1 l := by
  unfold bstep2
  simp only [shiftRight_two]
  rw [show rep8 0x33 (n+1) = 2^8 * rep8 0x33 n + 0x33 from rfl,
    show rep8 0x33 1 = 0x33 from rfl]
  rw [@and_split 8 l 0x33 h (rep8 0x33 n) hl (by norm_num)]
  have hd : (2^8*h + l) / 4 = 2^8*(h/4) + (2^6*(h%4) + l/4) := by omega
  rw [hd]
  rw [@and_split 8 (2^6*(h%4) + l/4) 0x33 (h/4) (rep8 0x33 n) (by omega) (by norm_num)]
  rw [@and_byte_high 6 (h%4) (l/4) 0x33 (by omega) (by norm_num)]
  omega

/-- The output of step 2 on one byte is at most 0x66. -/
theorem bstep2_byte_le (v : Nat) : bstep2 1 v ≤ 0x66 := by
  unfold bstep2
  have h1 : v &&& rep8 0x33 1 ≤ rep8 0x33 1 := Nat.and_le_right
  have h2 : (v >>> 2) &&& rep8 0x33 1 ≤ rep8 0x33 1 := Nat.and_le_right
  have h3 : rep8 0x33 1 = 0x33 := rfl
  omega

/-- The low nibble of any step-2 output is at most 6 (a sum of two 2-bit
counts), so adding a shifted copy cannot carry across nibbles. -/
theorem bstep2_mod16 (n y : Nat) : bstep2 n y % 16 ≤ 6 := by
  cases n with
  | zero =>
    simp [bstep2, rep8, Nat.and_zero]
  | succ n =>
    unfold bstep2
    have hrep : rep8 0x33 (n+1) &&& 15 = 3 := by
      rw [show rep8 0x33 (n+1) = 2^8 * rep8 0x33 n + 0x33 from rfl]
      have h := @and_split 8 0x33 15 (rep8 0x33 n) 0 (by norm_num) (by norm_num)
      simp only [Nat.mul_zero, Nat.zero_add, Nat.and_zero] at h
      rw [h]
      decide
    have hmask : ∀ z : Nat, (z &&& rep8 0x33 (n+1)) % 16 ≤ 3 := by
      intro z
      have h1 := and_two_pow_sub_one (z &&& rep8 0x33 (n+1)) 4
      have h2 : (z &&& rep8 0x33 (n+1)) &&& 15 = z &&& 3 := by
        rw [Nat.land_assoc, hrep]
      have h3 : z &&& 3 ≤ 3 := Nat.and_le_right
      norm_num at h1
      omega
    have hA := hmask y
    have hB := hmask (y >>> 2)
    omega

/-- Step 3 processes the low byte and the remaining bytes independently,
provided every nibble involved is small enough that the addition
`z + (z >>> 4)` has no carry across the byte boundary. -/
theorem bstep3_split (n Z zl : Nat) (hzl : zl ≤ 0x66) (hZ : Z % 16 ≤ 6) :
    bstep3 (n+1) (2^8*Z + zl) = 2^8 * bstep3 n Z + bstep3 1 zl := by
  unfold bstep3
  simp only [shiftRight_four]
  rw [show rep8 0x0F (n+1) = 2^8 * rep8 0x0F n + 0x0F from rfl,
    show rep8 0x0F 1 = 0x0F from rfl]
  have hd : (2^8*Z + zl) / 16 = 2^8*(Z/16) + (2^4*(Z%16) + zl/16) := by omega
  rw [hd]
  have hsum : 2^8*Z + zl + (2^8*(Z/16) + (2^4*(Z%16) + zl/16)) =
      2^8*(Z + Z/16) + (zl + zl/16 + 2^4*(Z%16)) := by ring
  rw [hsum]
  rw [@and_split 8 (zl + zl/16 + 2^4*(Z%16)) 0x0F (Z + Z/16) (rep8 0x0F n) (by omega) (by norm_num)]
  congr 1
  rw [and_mod16, and_mod16]
  omega

set_option maxRecDepth 1000000 in
/-- Combined pipeline on a single byte equals its population count
(finite check over all 256 bytes). -/
theorem byte_pipeline : ∀ b, b < 256 → bstep3 1 (bstep2 1 (bstep1 1 b)) = pc8 b := by
  decide

/-- Unfolding of byteSums on an aligned byte split. -/
theorem byteSums_succ (n h l : Nat) (hl : l < 2^8) :
    byteSums (n+1) (2^8*h + l) = 2^8 * byteSums n h + pc8 l := by
  show 2^8 * byteSums n ((2^8*h + l) / 2^8) + pc8 ((2^8*h + l) % 2^8) = _
  have h1 : (2^8*h + l) / 2^8 = h := by omega
  have h2 : (2^8*h + l) % 2^8 = l := by omega
  rw [h1, h2]

/-- The three masked steps of CountSetBits, generalised to `n` bytes,
compute the packed byte-wise population counts. -/
theorem pipe_correct : ∀ n x, x < 2^(8*n) →
    bstep3 n (bstep2 n (bstep1 n x)) = byteSums n x := by
  intro n
  induction n with
  | zero =>
    intro x hx
    norm_num at hx
    subst hx
    decide
  | succ n ih =>
    intro x hx
    obtain ⟨h, l, rfl, hl⟩ : ∃ h l, x = 2^8 * h + l ∧ l < 2^8 :=
      ⟨x / 2^8, x % 2^8, by omega, by omega⟩
    have hpow : (2:Nat)^(8*(n+1)) = 2^8 * 2^(8*n) := by
      rw [← pow_add]
      congr 1
      ring
    have hh : h < 2^(8*n) := by
      rw [hpow] at hx
      omega
    rw [bstep1_split n h l hl]
    have hL1 : bstep1 1 l < 2^8 := lt_of_le_of_lt (Nat.sub_le _ _) hl
    rw [bstep2_split n (bstep1 n h) (bstep1 1 l) hL1]
    rw [bstep3_split n (bstep2 n (bstep1 n h)) (bstep2 1 (bstep1 1 l))
      (bstep2_byte_le (bstep1 1 l)) (bstep2_mod16 n (bstep1 n h))]
    rw [ih h hh, byteSums_succ n h l hl, byte_pipeline l (by omega)]

/-- CountSetBits is the 4-byte pipeline followed by the byte-summing
multiply: the literal masks are `rep8` at width 4. -/
theorem countSetBits_eq_pipe (x : Nat) :
    CountSetBits x = ((bstep3 4 (bstep2 4 (bstep1 4 x)) * 0x01010101) % 2^32) >>> 24 := by
  have h55 : rep8 0x55 4 = 0x55555555 := by decide
  have h33 : rep8 0x33 4 = 0x33333333 := by decide
  have h0F : rep8 0x0F 4 = 0x0F0F0F0F := by decide
  simp only [CountSetBits, bstep1, bstep2, bstep3, h55, h33, h0F]

/-- Flattened form of the 4-byte packed counts. -/
theorem byteSums_four (x : Nat) : byteSums 4 x =
    pc8 (x % 2^8) + 2^8 * pc8 (x / 2^8 % 2^8) + 2^16 * pc8 (x / 2^16 % 2^8) +
      2^24 * pc8 (x / 2^24 % 2^8) := by
  have e4 : byteSums 4 x = 2^8 * byteSums 3 (x / 2^8) + pc8 (x % 2^8) := rfl
  have e3 : byteSums 3 (x / 2^8) =
      2^8 * byteSums 2 (x / 2^8 / 2^8) + pc8 (x / 2^8 % 2^8) := rfl
  have e2 : byteSums 2 (x / 2^8 / 2^8) =
      2^8 * byteSums 1 (x / 2^8 / 2^8 / 2^8) + pc8 (x / 2^8 / 2^8 % 2^8) := rfl
  have e1 : byteSums 1 (x / 2^8 / 2^8 / 2^8) =
      2^8 * byteSums 0 (x / 2^8 / 2^8 / 2^8 / 2^8) + pc8 (x / 2^8 / 2^8 / 2^8 % 2^8) := rfl
  have e0 : byteSums 0 (x / 2^8 / 2^8 / 2^8 / 2^8) = 0 := rfl
  have hd1 : x / 2^8 / 2^8 = x / 2^16 := by
    rw [Nat.div_div_eq_div_mul]
    norm_num
  have hd2 : x / 2^16 / 2^8 = x / 2^24 := by
    rw [Nat.div_div_eq_div_mul]
    norm_num
  rw [e4, e3, e2, e1, e0, hd1, hd2]
  ring

/-- Each per-byte count is at most 8. -/
theorem pc8_le (b : Nat) : pc8 b ≤ 8 := by
  have h := List.countP_le_length (l := (List.range 8)) (fun i => b.testBit i)
  simp only [List.length_range] at h
  exact h

/-- Counting set bits over a split range: bits at or above `k` are the
bits of `x / 2^k`. -/
theorem countP_range_split (x k m : Nat) :
    (List.range (k + m)).countP (fun i => x.testBit i) =
    (List.range k).countP (fun i => x.testBit i) +
    (List.range m).countP (fun i => (x / 2^k).testBit i) := by
  rw [List.range_add, List.countP_append]
  congr 1
  rw [List.countP_map]
  apply List.countP_congr
  intro a _
  simp [Function.comp, ← Nat.shiftRight_eq_div_pow, Nat.testBit_shiftRight]

/-- Bits 0..7 of `y` are the bits of the byte `y % 2^8`. -/
theorem pc8_eq (y : Nat) :
    (List.range 8).countP (fun i => y.testBit i) = pc8 (y % 2^8) := by
  unfold pc8
  apply List.countP_congr
  intro a ha
  have ha8 : a < 8 := List.mem_range.mp ha
  rw [Nat.testBit_mod_two_pow]
  simp [ha8]

/-- Naive 32-bit population count, summed byte by byte. -/
theorem popcount32_bytes (x : Nat) : popcount32 x =
    pc8 (x % 2^8) + pc8 (x / 2^8 % 2^8) + pc8 (x / 2^16 % 2^8) + pc8 (x / 2^24 % 2^8) := by
  unfold popcount32
  have s1 := countP_range_split x 8 24
  rw [show (8:Nat) + 24 = 32 from rfl] at s1
  rw [s1]
  have s2 := countP_range_split (x / 2^8) 8 16
  rw [show (8:Nat) + 16 = 24 from rfl] at s2
  rw [s2]
  have s3 := countP_range_split (x / 2^8 / 2^8) 8 8
  rw [show (8:Nat) + 8 = 16 from rfl] at s3
  rw [s3]
  rw [pc8_eq x, pc8_eq (x / 2^8), pc8_eq (x / 2^8 / 2^8), pc8_eq (x / 2^8 / 2^8 / 2^8)]
  have hd1 : x / 2^8 / 2^8 = x / 2^16 := by
    rw [Nat.div_div_eq_div_mul]
    norm_num
  have hd2 : x / 2^16 / 2^8 = x / 2^24 := by
    rw [Nat.div_div_eq_div_mul]
    norm_num
  rw [hd1, hd2]
  omega

/-- Claim C4 (confirmed): for every 32-bit input, CountSetBits computes
the naive population count — the number of bit positions `i` in `[0, 32)`
at which bit `i` is set.  In particular `CountSetBits 0 = 0` and
`CountSetBits 0xFFFFFFFF = 32` (see the witness). -/
theorem countSetBits_correct (x : Nat) (hx : x < 2^32) :
    CountSetBits x = popcount32 x := by
  rw [countSetBits_eq_pipe]
  have h84 : (2:Nat)^(8*4) = 2^32 := by norm_num
  rw [pipe_correct 4 x (h84 ▸ hx)]
  rw [byteSums_four, popcount32_bytes]
  have p0le := pc8_le (x % 2^8)
  have p1le := pc8_le (x / 2^8 % 2^8)
  have p2le := pc8_le (x / 2^16 % 2^8)
  have p3le := pc8_le (x / 2^24 % 2^8)
  set p0 := pc8 (x % 2^8)
  set p1 := pc8 (x / 2^8 % 2^8)
  set p2 := pc8 (x / 2^16 % 2^8)
  set p3 := pc8 (x / 2^24 % 2^8)
  rw [Nat.shiftRight_eq_div_pow]
  have hexp : (p0 + 2^8*p1 + 2^16*p2 + 2^24*p3) * 0x01010101 =
      (p0 + 2^8*(p0+p1) + 2^16*(p0+p1+p2) + 2^24*(p0+p1+p2+p3)) +
      2^32*((p1+p2+p3) + 2^8*(p2+p3) + 2^16*p3) := by ring
  rw [hexp, Nat.add_mul_mod_self_left]
  have hL : p0 + 2^8*(p0+p1) + 2^16*(p0+p1+p2) + 2^24*(p0+p1+p2+p3) < 2^32 := by
    omega
  rw [Nat.mod_eq_of_lt hL]
  omega

/-- Witness for C4's theorem at the all-ones input, whose popcount is 32. -/
theorem countSetBits_correct_witness :
    (4294967295 < 2^32) ∧ CountSetBits 4294967295 = popcount32 4294967295 :=
  ⟨by norm_num, countSetBits_correct 4294967295 (by norm_num)⟩

/-! ## Claim C6 : Pow2Pad -/

/-- Doubling both operands preserves the self-AND-with-predecessor
pattern: `(2u) & (2u - 1) = 2 * (u & (u - 1))` for `u > 0`. -/
theorem and_pred_double (u : Nat) (hu : 0 < u) :
    (2*u) &&& (2*u - 1) = 2 * (u &&& (u - 1)) := by
  apply Nat.eq_of_testBit_eq
  intro i
  cases i with
  | zero =>
    simp [Nat.testBit_and, Nat.testBit_zero, Nat.mul_mod_right]
  | succ i =>
    rw [Nat.testBit_and, Nat.testBit_succ, Nat.testBit_succ, Nat.testBit_succ]
    have ha : 2*u/2 = u := by omega
    have hb : (2*u - 1)/2 = u - 1 := by omega
    have hc : 2*(u &&& (u-1))/2 = u &&& (u-1) := by omega
    rw [ha, hb, hc, Nat.testBit_and]

/-- An odd number above 1 shares its even part with its predecessor:
`(2u+1) & (2u) = 2u`. -/
theorem and_succ_double (u : Nat) : (2*u + 1) &&& (2*u) = 2*u := by
  apply Nat.eq_of_testBit_eq
  intro i
  cases i with
  | zero =>
    simp [Nat.testBit_and, Nat.testBit_zero, Nat.mul_mod_right]
  | succ i =>
    rw [Nat.testBit_and, Nat.testBit_succ, Nat.testBit_succ]
    have ha : (2*u + 1)/2 = u := by omega
    have hb : 2*u/2 = u := by omega
    rw [ha, hb, Bool.and_self]

/-- Completeness half of the power-of-two test: a positive value whose
AND with its predecessor is zero is a power of two. -/
theorem pow2_of_and_pred_eq_zero : ∀ v, 0 < v → v &&& (v - 1) = 0 → ∃ k, v = 2^k := by
  intro v
  induction v using Nat.strong_induction_on with
  | _ v ih =>
    intro hv h0
    rcases Nat.lt_or_ge v 2 with h | h
    · exact ⟨0, by omega⟩
    · rcases Nat.even_or_odd v with he | ho
      · obtain ⟨u, hu⟩ := he
        have hu2 : v = 2*u := by omega
        have hupos : 0 < u := by omega
        have h0' : u &&& (u - 1) = 0 := by
          rw [hu2, and_pred_double u hupos] at h0
          omega
        obtain ⟨k, hk⟩ := ih u (by omega) hupos h0'
        exact ⟨k+1, by rw [hu2, hk, pow_succ]; ring⟩
      · obtain ⟨u, hu⟩ := ho
        have hupos : 0 < u := by omega
        have habs : v &&& (v - 1) = 2*u := by
          have he1 : v - 1 = 2*u := by omega
          rw [he1, hu]
          exact and_succ_double u
        omega

/-- Soundness half of the power-of-two test. -/
theorem two_pow_and_pred (k : Nat) : 2^k &&& (2^k - 1) = 0 := by
  apply Nat.eq_of_testBit_eq
  intro i
  rw [Nat.testBit_and, Nat.testBit_two_pow, Nat.testBit_two_pow_sub_one, Nat.zero_testBit]
  rcases eq_or_ne i k with h | h
  · simp [h]
  · simp [h]
    omega

/-- Characterisation of IsPowerOfTwo: it recognises exactly the powers of
two (and rejects 0). -/
theorem isPowerOfTwo_iff (v : Nat) : IsPowerOfTwo v = true ↔ ∃ k, v = 2^k := by
  unfold IsPowerOfTwo
  rcases eq_or_ne v 0 with hv | hv
  · subst hv
    simp only [if_pos rfl]
    constructor
    · intro h
      exact absurd h (by simp)
    · rintro ⟨k, hk⟩
      have := Nat.two_pow_pos k
      omega
  · rw [if_neg hv]
    constructor
    · intro h
      exact pow2_of_and_pred_eq_zero v (Nat.pos_of_ne_zero hv) (by simpa using h)
    · rintro ⟨k, hk⟩
      subst hk
      simp [two_pow_and_pred]

/-- Once the loop guard fails, pow2PadGo returns the current `ret`
whatever the remaining fuel is. -/
theorem pow2PadGo_exit (w fuel ret value : Nat) (h : ¬ (ret < value)) :
    pow2PadGo w fuel ret value = some ret := by
  cases fuel <;> simp [pow2PadGo, h]

/-- With `ret = 0` the doubling loop is stuck: it never terminates for a
positive target value. -/
theorem pow2PadGo_zero_absorbs (w : Nat) : ∀ fuel v, 0 < v → pow2PadGo w fuel 0 v = none := by
  intro fuel
  induction fuel with
  | zero =>
    intro v hv
    simp [pow2PadGo, hv]
  | succ fuel ih =>
    intro v hv
    simp only [pow2PadGo]
    rw [if_pos hv]
    have hz : ((0:Nat) <<< 1) % 2^w = 0 := by simp
    rw [hz]
    exact ih v hv

/-- Correct run of the doubling loop: starting from `2^j < v` with enough
fuel and `v` no more than `2^(w-1)` (so the shift never wraps), the loop
stops at the first power of two at or above `v`. -/
theorem pow2PadGo_correct (w : Nat) : ∀ fuel j v, 0 < v → v ≤ 2^(w-1) → v ≤ 2^(j+fuel) →
    2^j < v → ∃ k, pow2PadGo w fuel (2^j) v = some (2^k) ∧ v ≤ 2^k ∧ 2^k < 2*v := by
  intro fuel
  induction fuel with
  | zero =>
    intro j v _ _ hle hlt
    rw [Nat.add_zero] at hle
    omega
  | succ fuel ih =>
    intro j v hv hw hle hlt
    have hjw : j < w - 1 := by
      have h1 : 2^j < 2^(w-1) := lt_of_lt_of_le hlt hw
      exact (Nat.pow_lt_pow_iff_right (by omega)).mp h1
    simp only [pow2PadGo]
    rw [if_pos hlt]
    have hsh : ((2^j) <<< 1) % 2^w = 2^(j+1) := by
      rw [Nat.shiftLeft_eq, ← pow_succ]
      exact Nat.mod_eq_of_lt (Nat.pow_lt_pow_right (by omega) (by omega))
    rw [hsh]
    rcases Nat.lt_or_ge (2^(j+1)) v with h2 | h2
    · have he : j + 1 + fuel = j + (fuel + 1) := by omega
      exact ih (j+1) v hv hw (by rw [he]; exact hle) h2
    · rw [pow2PadGo_exit w fuel _ v (by omega)]
      refine ⟨j+1, rfl, h2, ?_⟩
      rw [pow_succ]
      omega

/-- Claim C6 (corrected): on a `w`-bit unsigned type, for every `v` with
`1 ≤ v ≤ 2^(w-1)` and enough fuel, Pow2Pad terminates and returns the
smallest power of two at or above `v`; and `Pow2Pad 0 = 1`.  (As
originally stated — for every unsigned `v ≥ 1` — the claim fails: for a
non-power-of-two `v > 2^(w-1)` the doubling wraps to 0 and the loop never
terminates; see the counterexample.) -/
theorem pow2Pad_smallest (w fuel v : Nat) (hv : 1 ≤ v) (hw : v ≤ 2^(w-1))
    (hf : w - 1 ≤ fuel) :
    (∃ r, Pow2Pad w fuel v = some r ∧ (∃ k, r = 2^k) ∧ v ≤ r ∧
      ∀ j, v ≤ 2^j → r ≤ 2^j) ∧
    Pow2Pad w fuel 0 = some 1 := by
  constructor
  · unfold Pow2Pad
    cases hpow : IsPowerOfTwo v with
    | true =>
      rw [if_pos rfl]
      obtain ⟨k, hk⟩ := (isPowerOfTwo_iff v).mp hpow
      exact ⟨v, rfl, ⟨k, hk⟩, le_refl v, fun j hj => hj⟩
    | false =>
      rw [if_neg (by simp)]
      have hv1 : v ≠ 1 := by
        intro h
        rw [h] at hpow
        exact absurd hpow (by decide)
      have hentry : 2^0 < v := by
        have : (2:Nat)^0 = 1 := pow_zero 2
        omega
      have hfuel : v ≤ 2^(0 + fuel) := by
        rw [Nat.zero_add]
        calc v ≤ 2^(w-1) := hw
          _ ≤ 2^fuel := Nat.pow_le_pow_right (by omega) hf
      obtain ⟨k, heq, hge, hlt2⟩ := pow2PadGo_correct w fuel 0 v (by omega) hw hfuel hentry
      rw [show (2:Nat)^0 = 1 from pow_zero 2] at heq
      refine ⟨2^k, heq, ⟨k, rfl⟩, hge, ?_⟩
      intro j hj
      have hklt : 2^k < 2^(j+1) := by
        rw [pow_succ]
        omega
      have hkj : k < j + 1 := (Nat.pow_lt_pow_iff_right (by omega)).mp hklt
      exact Nat.pow_le_pow_right (by omega) (by omega)
  · unfold Pow2Pad
    rw [if_neg (by decide)]
    exact pow2PadGo_exit w fuel 1 0 (by omega)

/-- Witness for C6's theorem at `w = 32`, `fuel = 31`, `v = 5`. -/
theorem pow2Pad_smallest_witness :
    (1 ≤ 5) ∧ (5 ≤ 2^(32-1)) ∧ (32 - 1 ≤ 31) ∧
    ((∃ r, Pow2Pad 32 31 5 = some r ∧ (∃ k, r = 2^k) ∧ 5 ≤ r ∧
       ∀ j, 5 ≤ 2^j → r ≤ 2^j) ∧
     Pow2Pad 32 31 0 = some 1) :=
  ⟨by omega, by norm_num, by omega, pow2Pad_smallest 32 31 5 (by omega) (by norm_num) (by omega)⟩

/-- Divergence of the doubling loop at `w = 32` for the target
`2^31 + 1`: every reachable `ret` is a power of two `2^j ≤ 2^31`, the
shift at `ret = 2^31` wraps to 0, and 0 absorbs. -/
theorem pow2PadGo_wrap_diverges : ∀ fuel j, j ≤ 31 →
    pow2PadGo 32 fuel (2^j) (2^31 + 1) = none := by
  intro fuel
  induction fuel with
  | zero =>
    intro j hj
    have hle : (2:Nat)^j ≤ 2^31 := Nat.pow_le_pow_right (by omega) hj
    simp only [pow2PadGo]
    rw [if_pos (by omega)]
  | succ fuel ih =>
    intro j hj
    have hle : (2:Nat)^j ≤ 2^31 := Nat.pow_le_pow_right (by omega) hj
    simp only [pow2PadGo]
    rw [if_pos (by omega)]
    rcases Nat.lt_or_ge j 31 with h | h
    · have hsh : ((2^j) <<< 1) % 2^32 = 2^(j+1) := by
        rw [Nat.shiftLeft_eq, ← pow_succ]
        exact Nat.mod_eq_of_lt (Nat.pow_lt_pow_right (by omega) (by omega))
      rw [hsh]
      exact ih (j+1) (by omega)
    · have hj31 : j = 31 := by omega
      subst hj31
      have hsh : ((2^31 : Nat) <<< 1) % 2^32 = 0 := by
        rw [Nat.shiftLeft_eq, ← pow_succ]
        norm_num
      rw [hsh]
      exact pow2PadGo_zero_absorbs 32 fuel _ (by positivity)

/-- Counterexample to claim C6 as stated: at word width 32, for the
non-power-of-two input `2^31 + 1 ≥ 1` the function returns nothing at all
— the doubling loop wraps `ret` to 0 and then spins forever, so no amount
of fuel makes it produce a result (let alone the smallest power of two at
or above the input, which is not representable in 32 bits). -/
theorem pow2Pad_cex : (∃ fuel r, Pow2Pad 32 fuel (2^31 + 1) = some r) = False := by
  apply eq_false
  rintro ⟨fuel, r, h⟩
  unfold Pow2Pad at h
  rw [if_neg (by decide)] at h
  have hd := pow2PadGo_wrap_diverges fuel 0 (by omega)
  rw [pow_zero] at hd
  rw [hd] at h
  exact absurd h (by simp)

/-! ## Claim C1 : WideBitMaskScanForward on the bit-70 example -/

/-- Counterexample to claim C1 as stated: with only bit 70 set in a 3-word
32-bit array, a second call with `*pIndex = 71` does not return false — it
returns true and writes 70 again, because the scan restarts at the start
of the word containing `*pIndex`. -/
theorem wideBitMaskScanForward_bit70_cex :
    WideBitMaskScanForward 32 [0, 0, 64] 71 = (true, 70) := by decide

set_option maxRecDepth 100000 in
/-- Claim C1 (corrected): with only bit 70 set in a 3-word 32-bit array,
the first call (with `*pIndex = 0`) returns true and writes 70; but a
repeat call with `*pIndex` set to any larger in-range value again returns
true and writes 70, because the scan resumes at the start of the word
containing `*pIndex` (all of 71..95 lie in word 2, which holds bit 70).
False is returned only when no set bit exists in words at or after word
`*pIndex / 32`, as the second conjunct illustrates. -/
theorem wideBitMaskScanForward_bit70 :
    ∀ p, p < 96 → (p = 0 ∨ 70 < p) →
      WideBitMaskScanForward 32 [0, 0, 64] p = (true, 70) ∧
      WideBitMaskScanForward 32 [1, 0, 0] 32 = (false, 0) := by
  decide

/-- Witness for C1's theorem at the repeat call `*pIndex = 71`. -/
theorem wideBitMaskScanForward_bit70_witness :
    (71 < 96) ∧ ((71 = 0 ∨ 70 < 71)) ∧
    (WideBitMaskScanForward 32 [0, 0, 64] 71 = (true, 70) ∧
     WideBitMaskScanForward 32 [1, 0, 0] 32 = (false, 0)) :=
  ⟨by decide, Or.inr (by decide), wideBitMaskScanForward_bit70 71 (by decide) (Or.inr (by decide))⟩

end Util
